import Mathlib

/-!
Verification of the optifolio portfolio search engine.

The Python source (`src/procedural/src/utils.py`, `src/procedural/src/simulate.py`)
is shallowly embedded below.  Numeric values are modelled by `ℚ` where the code
performs field arithmetic, and by `ℝ` where a square root is taken
(`np.std`, `np.sqrt`).  A `numpy` array of weights becomes a `List ℚ`; the
returns frame becomes a list of dates, each date a function from ticker name to
its return for that date.  Fallible code (a Python `raise`) is modelled with
`Except String`.
-/

namespace Optifolio

/-- Population mean, `np.mean`: sum divided by length (Lean's `x / 0 = 0`
convention stands in for numpy's NaN on the empty array, which never feeds a
claim below). -/
def meanQ (xs : List ℚ) : ℚ := xs.sum / xs.length

/-- Population variance (`np.std` squared, `ddof = 0`): mean of squared
deviations from the mean. -/
def varQ (xs : List ℚ) : ℚ := (xs.map (fun x => (x - meanQ xs) ^ 2)).sum / xs.length

/-- Population standard deviation, `np.std`: square root of `varQ`. -/
noncomputable def stdR (xs : List ℚ) : ℝ := Real.sqrt (varQ xs)

/-- Row-by-weights dot product, one date's entry of `returns_array.dot(weights_array)`. -/
def dotQ (row w : List ℚ) : ℚ := (List.zipWith (fun x y => x * y) row w).sum

/-- `np.isclose(a, b)` with the default tolerances `rtol = 1e-5`, `atol = 1e-8`:
`|a - b| ≤ atol + rtol * |b|`. -/
def isClose (a b : ℚ) : Bool := |a - b| ≤ 1 / 100000000 + 1 / 100000 * |b|

/-- `PortfolioMetrics.compute_portfolio_returns` (utils.py lines 10-39): guard
`if not np.isclose(np.sum(weights), 1.0): raise ValueError(...)`, then the
row-wise dot product `returns_array.dot(weights_array)`. -/
def compute_portfolio_returns (weights : List ℚ) (returns : List (List ℚ)) :
    Except String (List ℚ) :=
  if isClose weights.sum 1 then
    Except.ok (returns.map (fun row => dotQ row weights))
  else
    Except.error "Weights must sum to 1.0"

/-- `PortfolioMetrics.annualized_return` (utils.py lines 41-66):
`np.mean(returns) * trading_days` (the caller passes the default 252). -/
def annualized_return (returns : List ℚ) (trading_days : ℚ) : ℚ :=
  meanQ returns * trading_days

/-- `PortfolioMetrics.compute_portfolio_annualized_volatility` (utils.py lines
68-93): `np.std(returns) * np.sqrt(trading_days)`. -/
noncomputable def compute_portfolio_annualized_volatility
    (returns : List ℚ) (trading_days : ℚ) : ℝ :=
  stdR returns * Real.sqrt (trading_days : ℝ)

/-- `PortfolioMetrics.compute_portfolio_sharpe_ratio` (utils.py lines 95-126):
`if daily_volatility == 0: return 0.0` else `(mean - rf) / std`.  The guard is
expressed on the variance; `sqrt_varQ_eq_zero_iff` below shows this is the same
test as the code's `np.std(...) == 0`. -/
noncomputable def compute_portfolio_sharpe_ratio
    (returns : List ℚ) (risk_free_rate : ℚ) : ℝ :=
  if varQ returns = 0 then 0
  else ((meanQ returns : ℝ) - (risk_free_rate : ℝ)) / stdR returns

/-- `arr / np.sum(arr)`: divide every entry of a vector by the vector's sum. -/
def normalizeBySum (l : List ℚ) : List ℚ := l.map (fun x => x / l.sum)

/-- `PortfolioSimulator._sample_weights` (simulate.py lines 49-60): the Dirichlet
draw is the input `d`; the code then returns `weights / sum(weights)`. -/
def sampleNormalize (d : List ℚ) : List ℚ := normalizeBySum d

/-- `total_excess = np.sum(excess_weights) - max_weight * np.sum(excess_mask)`
(simulate.py line 88). -/
def totalExcess (c : ℚ) (w : List ℚ) : ℚ :=
  (w.filter (fun x => c < x)).sum - c * (w.filter (fun x => c < x)).length

/-- `sum_below_max = np.sum(below_max_weights)` (simulate.py line 105), where
`below_max_mask = ~excess_mask` is computed on the pre-clamping copy (clamping
only changes excess positions, so the below values are the original ones). -/
def belowSum (c : ℚ) (w : List ℚ) : ℚ := (w.filter (fun x => ¬ c < x)).sum

/-- Simulate.py lines 90-110: cap the excess positions at `c`; when
`sum_below_max > 0` add `below_max_weights * (total_excess / sum_below_max)` to
each below-cap position, otherwise leave them as they are. -/
def redistribute (c : ℚ) (w : List ℚ) : List ℚ :=
  if 0 < belowSum c w then
    w.map (fun x => if c < x then c else x + x * (totalExcess c w / belowSum c w))
  else
    w.map (fun x => if c < x then c else x)

/-- `PortfolioSimulator._apply_max_weight_constraint` (simulate.py lines
62-113), element-wise transcription of the numpy mask operations: identity when
`max_weight >= 1.0` or no entry exceeds the cap; when no entry is below the cap,
`np.ones_like(w) * max_weight` divided by its sum; otherwise the
clamp-and-redistribute vector divided by its sum. -/
def applyMaxWeightConstraint (c : ℚ) (w : List ℚ) : List ℚ :=
  if 1 ≤ c then w
  else if (w.filter (fun x => c < x)).length = 0 then w
  else if (w.filter (fun x => ¬ c < x)).length = 0 then
    normalizeBySum (w.map (fun _ => c))
  else normalizeBySum (redistribute c w)

/-- The §4.3 WeightCapProjector contract, written from the spec's words (for the
refinement claim C3): partition into excess (`w_i > c`) and under (`w_i ≤ c`);
identity when `c ≥ 1` or excess is empty; every element set to `c / (k·c)` when
under is empty; otherwise clamp the excess elements to `c`, give each under
element the gain `total_excess · w_i / Σ(under values)`, and renormalize the
full vector to sum to 1. -/
def refProjector (c : ℚ) (w : List ℚ) : List ℚ :=
  if 1 ≤ c then w
  else if (w.filter (fun x => c < x)).length = 0 then w
  else if (w.filter (fun x => x ≤ c)).length = 0 then
    w.map (fun _ => c / (w.length * c))
  else
    normalizeBySum (w.map (fun x => if c < x then c
      else x + totalExcess c w * x / (w.filter (fun y => y ≤ c)).sum))

/- ### basic lemmas about the numeric helpers -/

theorem varQ_nonneg (xs : List ℚ) : 0 ≤ varQ xs := by
  unfold varQ
  apply div_nonneg
  · apply List.sum_nonneg
    intro x hx
    obtain ⟨y, _, rfl⟩ := List.mem_map.mp hx
    positivity
  · positivity

theorem sqrt_varQ_eq_zero_iff (xs : List ℚ) : stdR xs = 0 ↔ varQ xs = 0 := by
  unfold stdR
  rw [Real.sqrt_eq_zero (by exact_mod_cast varQ_nonneg xs)]
  constructor
  · intro h; exact_mod_cast h
  · intro h; exact_mod_cast h

theorem varQ_replicate (n : ℕ) (a : ℚ) : varQ (List.replicate n a) = 0 := by
  rcases Nat.eq_zero_or_pos n with h | h
  · subst h; simp [varQ, meanQ]
  · have hmean : meanQ (List.replicate n a) = a := by
      unfold meanQ
      rw [List.sum_replicate, List.length_replicate, nsmul_eq_mul, mul_comm,
        mul_div_assoc, div_self (by exact_mod_cast h.ne'), mul_one]
    unfold varQ
    rw [hmean]
    simp [List.map_replicate]

theorem sum_map_div (l : List ℚ) (s : ℚ) : (l.map (fun x => x / s)).sum = l.sum / s := by
  induction l with
  | nil => simp
  | cons x xs ih => simp [ih, add_div]

theorem normalizeBySum_sum {l : List ℚ} (h : l.sum ≠ 0) : (normalizeBySum l).sum = 1 := by
  unfold normalizeBySum
  rw [sum_map_div, div_self h]

theorem sum_pos_of_mem {y : ℚ} (hpos : 0 < y) :
    ∀ {l : List ℚ}, (∀ x ∈ l, 0 ≤ x) → y ∈ l → 0 < l.sum := by
  intro l
  induction l with
  | nil => intro _ hy; exact absurd hy (List.not_mem_nil y)
  | cons a as ih =>
    intro h0 hy
    rw [List.sum_cons]
    rcases List.mem_cons.mp hy with rfl | hmem
    · exact add_pos_of_pos_of_nonneg hpos
        (List.sum_nonneg fun x hx => h0 x (List.mem_cons_of_mem _ hx))
    · exact add_pos_of_nonneg_of_pos (h0 a (List.mem_cons_self a as))
        (ih (fun x hx => h0 x (List.mem_cons_of_mem _ hx)) hmem)

theorem mul_length_le_sum {c : ℚ} :
    ∀ {l : List ℚ}, (∀ x ∈ l, c ≤ x) → c * l.length ≤ l.sum := by
  intro l
  induction l with
  | nil => intro _; simp
  | cons a as ih =>
    intro h
    have h1 := h a (List.mem_cons_self a as)
    have h2 := ih (fun x hx => h x (List.mem_cons_of_mem _ hx))
    rw [List.sum_cons, List.length_cons]
    push_cast
    linarith

theorem totalExcess_nonneg (c : ℚ) (w : List ℚ) : 0 ≤ totalExcess c w := by
  unfold totalExcess
  have h : ∀ x ∈ w.filter (fun x => c < x), c ≤ x := fun x hx =>
    le_of_lt (by simpa using List.of_mem_filter hx)
  linarith [mul_length_le_sum h]

theorem redistribute_nonneg {c : ℚ} {w : List ℚ} (hc : 0 < c) (h0 : ∀ x ∈ w, 0 ≤ x) :
    ∀ y ∈ redistribute c w, 0 ≤ y := by
  intro y hy
  unfold redistribute at hy
  have ht := totalExcess_nonneg c w
  split at hy
  case isTrue hpos =>
    obtain ⟨x, hx, rfl⟩ := List.mem_map.mp hy
    by_cases hcx : c < x
    · simpa [hcx] using hc.le
    · have hx0 := h0 x hx
      have : 0 ≤ x * (totalExcess c w / belowSum c w) :=
        mul_nonneg hx0 (div_nonneg ht hpos.le)
      simp only [if_neg hcx]
      linarith
  case isFalse hpos =>
    obtain ⟨x, hx, rfl⟩ := List.mem_map.mp hy
    by_cases hcx : c < x
    · simpa [hcx] using hc.le
    · simpa [hcx] using h0 x hx

theorem mem_redistribute_of_excess {c : ℚ} {w : List ℚ} {x : ℚ} (hx : x ∈ w) (hcx : c < x) :
    c ∈ redistribute c w := by
  unfold redistribute
  split
  · exact List.mem_map.mpr ⟨x, hx, by simp [hcx]⟩
  · exact List.mem_map.mpr ⟨x, hx, by simp [hcx]⟩

theorem redistribute_sum_pos {c : ℚ} {w : List ℚ} (hc : 0 < c) (h0 : ∀ x ∈ w, 0 ≤ x)
    {x : ℚ} (hx : x ∈ w) (hcx : c < x) : 0 < (redistribute c w).sum :=
  sum_pos_of_mem hc (redistribute_nonneg hc h0) (mem_redistribute_of_excess hx hcx)

/-- The cap projector preserves a unit sum exactly: for a nonnegative weight
vector summing to 1 and any positive cap, the output sums to exactly 1. -/
theorem sum_applyMaxWeightConstraint (c : ℚ) (w : List ℚ) (hc : 0 < c)
    (h0 : ∀ x ∈ w, 0 ≤ x) (hs : w.sum = 1) :
    (applyMaxWeightConstraint c w).sum = 1 := by
  unfold applyMaxWeightConstraint
  split_ifs with h1 h2 h3
  · exact hs
  · exact hs
  · have hne : w ≠ [] := by rintro rfl; simp at hs
    have hlen : (0 : ℚ) < w.length := by exact_mod_cast List.length_pos.mpr hne
    apply normalizeBySum_sum
    rw [List.map_const', List.sum_replicate, nsmul_eq_mul]
    exact ne_of_gt (mul_pos hlen hc)
  · obtain ⟨x, hxf⟩ :=
      (w.filter (fun x => c < x)).exists_mem_of_ne_nil
        (fun hnil => h2 (by rw [hnil]; rfl))
    have hxw : x ∈ w := List.mem_of_mem_filter hxf
    have hcx : c < x := by simpa using List.of_mem_filter hxf
    exact normalizeBySum_sum (ne_of_gt (redistribute_sum_pos hc h0 hxw hcx))

/- ### C3: the code's projector refines the §4.3 reference function -/

/-- C3: for every nonnegative weight vector `w` and cap `c`, the weight-cap
projector of the code (`_apply_max_weight_constraint`) equals the case-defined
reference function of §4.3: identity when `c ≥ 1` or when no element exceeds
`c`; in the mixed case the excess elements are clamped to `c`, each under
element gains `total_excess · w_i / Σ(under values)`, and the whole vector is
renormalized to sum to 1. -/
theorem cap_projector_refines_spec (c : ℚ) (w : List ℚ) (h0 : ∀ x ∈ w, 0 ≤ x) :
    applyMaxWeightConstraint c w = refProjector c w := by
  have hfilter : w.filter (fun x => x ≤ c) = w.filter (fun x => ¬ c < x) :=
    List.filter_congr (fun x _ => by simp [not_lt])
  unfold applyMaxWeightConstraint refProjector
  rw [hfilter]
  split_ifs with h1 h2 h3
  · rfl
  · rfl
  · unfold normalizeBySum
    rw [List.map_const', List.sum_replicate, nsmul_eq_mul, List.map_replicate,
      List.map_const']
  · have hred : redistribute c w = w.map (fun x => if c < x then c
        else x + totalExcess c w * x / (w.filter (fun y => ¬ c < y)).sum) := by
      unfold redistribute belowSum
      split_ifs with hspos
      · refine List.map_congr_left fun x _ => ?_
        by_cases hcx : c < x
        · simp [hcx]
        · simp only [if_neg hcx]
          ring
      · have hs0 : (w.filter (fun y => ¬ c < y)).sum = 0 :=
          le_antisymm (not_lt.mp hspos)
            (List.sum_nonneg fun x hx => h0 x (List.mem_of_mem_filter hx))
        refine List.map_congr_left fun x _ => ?_
        by_cases hcx : c < x
        · simp [hcx]
        · simp only [if_neg hcx]
          rw [hs0, div_zero, add_zero]
    rw [hred]

/-- Witness for C3 at a concrete input, discharging the nonnegativity
hypothesis. -/
theorem cap_projector_refines_spec_witness :
    applyMaxWeightConstraint (7/20) [1/2, 3/10, 1/5] = refProjector (7/20) [1/2, 3/10, 1/5] :=
  cap_projector_refines_spec (7/20) [1/2, 3/10, 1/5] (by norm_num)

/- ### C4: the sum invariant holds; the cap invariant fails -/

/-- C4 (amended): every sampled-then-projected weight vector satisfies
`|Σw − 1| < 1e-6` — in the exact-arithmetic model the projected sum is exactly
1 for any draw with nonnegative entries and positive total and any positive
cap. -/
theorem sampled_projected_sum_close (c : ℚ) (d : List ℚ) (hc : 0 < c)
    (h0 : ∀ x ∈ d, 0 ≤ x) (hsum : 0 < d.sum) :
    |(applyMaxWeightConstraint c (sampleNormalize d)).sum - 1| < 1/1000000 := by
  have hnorm0 : ∀ x ∈ sampleNormalize d, 0 ≤ x := by
    intro x hx
    obtain ⟨y, hy, rfl⟩ := List.mem_map.mp hx
    exact div_nonneg (h0 y hy) hsum.le
  have hnormsum : (sampleNormalize d).sum = 1 := normalizeBySum_sum (ne_of_gt hsum)
  rw [sum_applyMaxWeightConstraint c _ hc hnorm0 hnormsum]
  norm_num

/-- Witness for C4's amended theorem at a concrete draw. -/
theorem sampled_projected_sum_close_witness :
    |(applyMaxWeightConstraint (1/5) (sampleNormalize [3, 1])).sum - 1| < 1/1000000 :=
  sampled_projected_sum_close (1/5) [3, 1] (by norm_num) (by norm_num) (by norm_num)

/-- Counterexample to C4 as stated: for the sampled simplex vector
`[1/2, 3/10, 1/5]` and cap `max_weight = 7/20 < 1`, redistribution pushes the
previously-under element `3/10` up to `39/100`, so the projected vector
contains an element greater than `max_weight + 1e-6`. -/
theorem sampled_projected_cap_counterexample :
    (39/100 : ℚ) ∈ applyMaxWeightConstraint (7/20) (sampleNormalize [1/2, 3/10, 1/5]) ∧
    ¬ ((39/100 : ℚ) ≤ 7/20 + 1/1000000) := by
  constructor
  · have : applyMaxWeightConstraint (7/20) (sampleNormalize [1/2, 3/10, 1/5]) =
        [7/20, 39/100, 13/50] := by
      norm_num [applyMaxWeightConstraint, sampleNormalize, normalizeBySum, redistribute,
        totalExcess, belowSum, List.filter]
    rw [this]
    simp
  · norm_num

/- ### C9: the all-excess branch -/

/-- C9 (amended): when every element exceeds the cap `c < 1`, the projector
sets every element to `c` and renormalizes by the sum `k·c`, so every output
element equals `1/k` and the vector sums to 1; when `k·c < 1` this leaves every
element of the result strictly ABOVE the nominal cap `c` (not below it). -/
theorem all_excess_uniform (c : ℚ) (w : List ℚ) (hc : 0 < c) (hc1 : ¬ 1 ≤ c)
    (hne : w ≠ []) (hall : ∀ x ∈ w, c < x) :
    applyMaxWeightConstraint c w = w.map (fun _ => 1 / (w.length : ℚ)) ∧
    (applyMaxWeightConstraint c w).sum = 1 ∧
    ((w.length : ℚ) * c < 1 → ∀ y ∈ applyMaxWeightConstraint c w, c < y) := by
  have hlen : (0 : ℚ) < w.length := by exact_mod_cast List.length_pos.mpr hne
  have hEfull : w.filter (fun x => c < x) = w := List.filter_eq_self.mpr
    (fun x hx => by simpa using hall x hx)
  have hBnil : w.filter (fun x => ¬ c < x) = [] := by
    rw [List.filter_eq_nil_iff]
    intro x hx
    simpa using hall x hx
  have hElen : ¬ (w.filter (fun x => c < x)).length = 0 := by
    rw [hEfull]
    exact fun h => hne (List.length_eq_zero.mp h)
  have heq : applyMaxWeightConstraint c w = w.map (fun _ => 1 / (w.length : ℚ)) := by
    unfold applyMaxWeightConstraint
    rw [if_neg hc1, if_neg hElen, if_pos (by rw [hBnil]; rfl)]
    unfold normalizeBySum
    rw [List.map_const', List.sum_replicate, nsmul_eq_mul, List.map_replicate,
      List.map_const']
    congr 1
    rw [div_eq_div_iff (ne_of_gt (mul_pos hlen hc)) (ne_of_gt hlen)]
    ring
  refine ⟨heq, ?_, ?_⟩
  · rw [heq, List.map_const', List.sum_replicate, nsmul_eq_mul]
    field_simp
  · intro hkc y hy
    rw [heq] at hy
    obtain ⟨x, _, rfl⟩ := List.mem_map.mp hy
    rw [lt_div_iff₀ hlen, mul_comm]
    exact hkc

/-- Witness for C9's amended theorem: both entries of `[1/2, 1/2]` exceed the
cap `3/10`. -/
theorem all_excess_uniform_witness :
    applyMaxWeightConstraint (3/10) [1/2, 1/2] =
      [1/2, 1/2].map (fun _ => 1 / (([1/2, 1/2] : List ℚ).length : ℚ)) ∧
    (applyMaxWeightConstraint (3/10) [(1:ℚ)/2, 1/2]).sum = 1 ∧
    ((([1/2, 1/2] : List ℚ).length : ℚ) * (3/10) < 1 →
      ∀ y ∈ applyMaxWeightConstraint (3/10) [(1:ℚ)/2, 1/2], 3/10 < y) :=
  all_excess_uniform (3/10) [1/2, 1/2] (by norm_num) (by norm_num)
    (by simp) (by norm_num)

/-- Counterexample to C9 as stated: with `w = [1/2, 1/2]` (every element above
the cap `3/10`) and `k·c = 3/5 < 1`, the renormalized result is `[1/2, 1/2]`,
whose elements are strictly above the nominal cap, not below it. -/
theorem all_excess_below_cap_counterexample :
    (∀ x ∈ ([1/2, 1/2] : List ℚ), (3:ℚ)/10 < x) ∧
    (2 : ℚ) * (3/10) < 1 ∧
    applyMaxWeightConstraint (3/10) [1/2, 1/2] = [1/2, 1/2] ∧
    ¬ (∀ y ∈ applyMaxWeightConstraint (3/10) [(1:ℚ)/2, 1/2], y < 3/10) := by
  have heval : applyMaxWeightConstraint (3/10) [(1:ℚ)/2, 1/2] = [1/2, 1/2] := by
    norm_num [applyMaxWeightConstraint, normalizeBySum, redistribute,
      totalExcess, belowSum, List.filter]
  refine ⟨?_, by norm_num, heval, ?_⟩
  · intro x hx
    rcases List.mem_cons.mp hx with rfl | hx
    · norm_num
    · rcases List.mem_cons.mp hx with rfl | hx
      · norm_num
      · exact absurd hx (List.not_mem_nil x)
  · rw [heval]
    intro h
    have := h (1/2) (by simp)
    norm_num at this

/- ### C5: the zero-volatility guard of the Sharpe ratio -/

/-- C5: for every return series whose standard deviation is zero — in
particular every constant series — and every risk-free rate, the Sharpe ratio
is exactly 0 (the guard fires; no division happens); for every series with
nonzero standard deviation it is `(mean − rf) / std`. -/
theorem sharpe_zero_guard (xs : List ℚ) (rf : ℚ) :
    (stdR xs = 0 → compute_portfolio_sharpe_ratio xs rf = 0) ∧
    (∀ (n : ℕ) (a : ℚ), xs = List.replicate n a →
      compute_portfolio_sharpe_ratio xs rf = 0) ∧
    (stdR xs ≠ 0 →
      compute_portfolio_sharpe_ratio xs rf = ((meanQ xs : ℝ) - (rf : ℝ)) / stdR xs) := by
  refine ⟨?_, ?_, ?_⟩
  · intro h
    rw [sqrt_varQ_eq_zero_iff] at h
    simp [compute_portfolio_sharpe_ratio, h]
  · rintro n a rfl
    simp [compute_portfolio_sharpe_ratio, varQ_replicate]
  · intro h
    rw [ne_eq, sqrt_varQ_eq_zero_iff] at h
    simp [compute_portfolio_sharpe_ratio, h]

/-- Witness for C5: the constant series `[2, 2, 2]` with risk-free rate 5 gets
Sharpe ratio exactly 0. -/
theorem sharpe_zero_guard_witness : compute_portfolio_sharpe_ratio [2, 2, 2] 5 = 0 :=
  (sharpe_zero_guard [2, 2, 2] 5).2.1 3 2 rfl

/- ### C6: weight validation in PortfolioReturns -/

/-- C6: `compute_portfolio_returns` raises the validation error if and only if
the weight sum is not within `np.isclose` tolerance of 1; otherwise it returns
the per-date dot products of the return rows with the weight vector.  (The
embedding is a pure function of its arguments, so the returns slice is left
unchanged by construction.) -/
theorem portfolio_returns_validation (w : List ℚ) (R : List (List ℚ)) :
    ((∃ e, compute_portfolio_returns w R = Except.error e) ↔ ¬ isClose w.sum 1 = true) ∧
    (isClose w.sum 1 = true →
      compute_portfolio_returns w R = Except.ok (R.map (fun row => dotQ row w))) := by
  unfold compute_portfolio_returns
  by_cases h : isClose w.sum 1 = true
  · rw [if_pos h]
    exact ⟨⟨fun ⟨e, he⟩ => absurd he (by simp), fun hn => absurd h hn⟩, fun _ => rfl⟩
  · rw [if_neg h]
    exact ⟨⟨fun _ => h, fun _ => ⟨_, rfl⟩⟩, fun hc => absurd hc h⟩

/-- Witness for C6: weights `[1/2, 1/2]` sum to exactly 1, so the guard passes
and the dot products are returned. -/
theorem portfolio_returns_validation_witness :
    compute_portfolio_returns [1/2, 1/2] [[1, 3]] =
      Except.ok (([[1, 3]] : List (List ℚ)).map (fun row => dotQ row [1/2, 1/2])) :=
  (portfolio_returns_validation [1/2, 1/2] [[1, 3]]).2 (by norm_num [isClose])

/- ### C8: annualization formulas and the 2-asset fixture -/

/-- C8: `annualized_return` is `mean × trading_days` and the annualized
volatility is `std × sqrt(trading_days)` (252 where the simulator calls them);
on the fixture of 2 assets over 3 dates with returns
`[[0.01, 0.02], [0.02, 0.01], [0.00, 0.03]]` and weights `[0.5, 0.5]`, the
portfolio returns are `[0.015, 0.015, 0.015]` and the annualized return is
`0.015 · 252 = 3.78 = 189/50`. -/
theorem annualization_formulas_fixture :
    (∀ (xs : List ℚ) (td : ℚ), annualized_return xs td = meanQ xs * td) ∧
    (∀ (xs : List ℚ) (td : ℚ),
      compute_portfolio_annualized_volatility xs td = stdR xs * Real.sqrt (td : ℝ)) ∧
    compute_portfolio_returns [1/2, 1/2]
        [[1/100, 2/100], [2/100, 1/100], [0, 3/100]] =
      Except.ok [3/200, 3/200, 3/200] ∧
    annualized_return [3/200, 3/200, 3/200] 252 = 189/50 := by
  refine ⟨fun xs td => rfl, fun xs td => rfl, ?_, ?_⟩
  · norm_num [compute_portfolio_returns, isClose, dotQ]
  · norm_num [annualized_return, meanQ]

/- ### C10: the three metrics share one notion of dispersion -/

/-- C10: whenever the annualized volatility at 252 trading days is nonzero,
the reported Sharpe ratio is exactly determined by the reported annualized
return and annualized volatility:
`SR = (AnnRet/252 − rf) / (AnnVol/√252)` — all three metrics use the same
population standard deviation. -/
theorem sharpe_determined_by_annualized (xs : List ℚ) (rf : ℚ) (_hne : xs ≠ [])
    (hvol : compute_portfolio_annualized_volatility xs 252 ≠ 0) :
    compute_portfolio_sharpe_ratio xs rf =
      (((annualized_return xs 252 : ℚ) : ℝ) / 252 - (rf : ℝ)) /
        (compute_portfolio_annualized_volatility xs 252 / Real.sqrt ((252 : ℚ) : ℝ)) := by
  have hsqrt : Real.sqrt ((252 : ℚ) : ℝ) ≠ 0 := by
    refine ne_of_gt (Real.sqrt_pos.mpr ?_)
    norm_num
  have hstd : stdR xs ≠ 0 := by
    intro h
    exact hvol (by rw [compute_portfolio_annualized_volatility, h, zero_mul])
  have hvar : ¬ varQ xs = 0 := fun h => hstd ((sqrt_varQ_eq_zero_iff xs).mpr h)
  rw [compute_portfolio_sharpe_ratio, if_neg hvar,
    compute_portfolio_annualized_volatility, annualized_return,
    mul_div_assoc, div_self hsqrt, mul_one]
  push_cast
  rw [mul_div_assoc]
  norm_num

/-- Witness for C10 at the series `[0, 1]` (variance 1/4, so nonzero
volatility) and risk-free rate 0. -/
theorem sharpe_determined_by_annualized_witness :
    compute_portfolio_sharpe_ratio [0, 1] 0 =
      (((annualized_return [0, 1] 252 : ℚ) : ℝ) / 252 - ((0 : ℚ) : ℝ)) /
        (compute_portfolio_annualized_volatility [0, 1] 252 / Real.sqrt ((252 : ℚ) : ℝ)) := by
  refine sharpe_determined_by_annualized [0, 1] 0 (by simp) ?_
  unfold compute_portfolio_annualized_volatility stdR
  have hv : varQ [0, 1] = 1/4 := by norm_num [varQ, meanQ]
  rw [hv]
  refine ne_of_gt (mul_pos (Real.sqrt_pos.mpr (by norm_num)) (Real.sqrt_pos.mpr (by norm_num)))

/- ### The simulator: combinations, trials, best-trial selection, full run -/

/-- `itertools.combinations(tickers, k)` (simulate.py lines 40-47): every
length-`k` subsequence of `l`, emitted in the itertools order (lexicographic
over index positions). -/
def combinations {α : Type*} : ℕ → List α → List (List α)
  | 0, _ => [[]]
  | _ + 1, [] => []
  | k + 1, x :: xs => (combinations k xs).map (fun t => x :: t) ++ combinations (k + 1) xs

/-- The result dictionary built by `_simulate_one` (simulate.py lines 161-167):
subset, winning weights and the winning trial statistics. -/
structure TrialResult where
  tickers : List String
  weights : List ℚ
  sharpe_ratio : ℝ
  annualized_return : ℚ
  annualized_volatility : ℝ

/-- Sequencing of per-iteration results: the first `raise` aborts the whole
loop (and, in `run`, the whole joblib collection). -/
def exceptList {β : Type*} : List (Except String β) → Except String (List β)
  | [] => Except.ok []
  | x :: xs =>
    match x with
    | Except.error e => Except.error e
    | Except.ok a =>
      match exceptList xs with
      | Except.error e => Except.error e
      | Except.ok as => Except.ok (a :: as)

/-- The incumbent-update loop of `_simulate_one` (simulate.py lines 129-158):
a trial replaces the incumbent only when its Sharpe ratio is strictly
greater (`if sharpe_ratio > best_sharpe`). -/
noncomputable def selectBest1 (best : TrialResult) : List TrialResult → TrialResult
  | [] => best
  | t :: ts => selectBest1 (if best.sharpe_ratio < t.sharpe_ratio then t else best) ts

/-- `best_sharpe` starts at `-np.inf`, so the first trial always becomes the
incumbent; with zero trials the incumbent stays `None`. -/
noncomputable def selectBest : List TrialResult → Option TrialResult
  | [] => none
  | t :: ts => some (selectBest1 t ts)

/-- One trial of `_simulate_one` (simulate.py lines 134-151): sample random
weights, project them through the cap, compute the portfolio returns on the
slice (which may raise), then the three metrics. -/
noncomputable def mkTrial (rf c : ℚ) (slice : List (List ℚ)) (combo : List String)
    (d : List ℚ) : Except String TrialResult :=
  match compute_portfolio_returns (applyMaxWeightConstraint c (sampleNormalize d)) slice with
  | Except.error e => Except.error e
  | Except.ok prs => Except.ok
      { tickers := combo
        weights := applyMaxWeightConstraint c (sampleNormalize d)
        sharpe_ratio := compute_portfolio_sharpe_ratio prs rf
        annualized_return := annualized_return prs 252
        annualized_volatility := compute_portfolio_annualized_volatility prs 252 }

/-- `PortfolioSimulator._simulate_one` (simulate.py lines 115-169) with the
random draws made explicit: the returns frame is sliced once to the subset
columns, each draw yields one trial, and the incumbent loop keeps the best.
With zero trials `best_weights` is still `None` when the result dictionary is
built and `best_weights.tolist()` raises `AttributeError`. -/
noncomputable def simulate_one (rf c : ℚ) (returns : List (String → ℚ))
    (draws : List (List ℚ)) (combo : List String) : Except String TrialResult :=
  match exceptList (draws.map (mkTrial rf c (returns.map (fun row => combo.map row)) combo)) with
  | Except.error e => Except.error e
  | Except.ok trials =>
    match selectBest trials with
    | none => Except.error "AttributeError: best_weights is None"
    | some t => Except.ok t

/-- The descending-Sharpe ordering of `df_results.sort('sharpe_ratio',
descending=True)` (simulate.py line 190). -/
def bySharpeDesc (a b : TrialResult) : Prop := b.sharpe_ratio ≤ a.sharpe_ratio

noncomputable instance : DecidableRel bySharpeDesc :=
  fun _ _ => Real.decidableLE _ _

instance : IsTotal TrialResult bySharpeDesc :=
  ⟨fun a b => le_total b.sharpe_ratio a.sharpe_ratio⟩

instance : IsTrans TrialResult bySharpeDesc :=
  ⟨fun _ _ _ hab hbc => le_trans hbc hab⟩

/-- `PortfolioSimulator.run` (simulate.py lines 171-192): enumerate every
combination, evaluate each subset (an exception in any one aborts the run),
then sort the collected rows by Sharpe ratio descending. -/
noncomputable def run (rf c : ℚ) (returns : List (String → ℚ))
    (draws : List String → List (List ℚ)) (tickers : List String) (k : ℕ) :
    Except String (List TrialResult) :=
  match exceptList ((combinations k tickers).map
      (fun combo => simulate_one rf c returns (draws combo) combo)) with
  | Except.error e => Except.error e
  | Except.ok rows => Except.ok (rows.insertionSort bySharpeDesc)

/- ### combination lemmas -/

theorem mem_combinations {α : Type*} (k : ℕ) (l : List α) (s : List α) :
    s ∈ combinations k l ↔ s.Sublist l ∧ s.length = k := by
  induction l generalizing k s with
  | nil =>
    cases k with
    | zero =>
      simp only [combinations, List.mem_singleton]
      constructor
      · rintro rfl; exact ⟨List.nil_sublist [], rfl⟩
      · rintro ⟨hs, hlen⟩; exact List.length_eq_zero.mp hlen
    | succ k =>
      simp only [combinations, List.not_mem_nil, false_iff, not_and]
      intro hs
      rw [List.sublist_nil.mp hs]
      simp
  | cons x xs ih =>
    cases k with
    | zero =>
      simp only [combinations, List.mem_singleton]
      constructor
      · rintro rfl; exact ⟨List.nil_sublist _, rfl⟩
      · rintro ⟨_, hlen⟩; exact List.length_eq_zero.mp hlen
    | succ k =>
      show s ∈ (combinations k xs).map (fun t => x :: t) ++ combinations (k + 1) xs ↔ _
      rw [List.mem_append, List.mem_map]
      constructor
      · rintro (⟨t, ht, rfl⟩ | h)
        · obtain ⟨hsub, hlen⟩ := (ih k t).mp ht
          exact ⟨hsub.cons₂ x, by simp [hlen]⟩
        · obtain ⟨hsub, hlen⟩ := (ih (k + 1) s).mp h
          exact ⟨hsub.cons x, hlen⟩
      · rintro ⟨hsub, hlen⟩
        rcases List.sublist_cons_iff.mp hsub with h | ⟨r, rfl, hr⟩
        · exact Or.inr ((ih (k + 1) s).mpr ⟨h, hlen⟩)
        · exact Or.inl ⟨r, (ih k r).mpr ⟨hr, by simpa using hlen⟩, rfl⟩

theorem length_combinations {α : Type*} (k : ℕ) (l : List α) :
    (combinations k l).length = l.length.choose k := by
  induction l generalizing k with
  | nil =>
    cases k with
    | zero => rfl
    | succ k => simp [combinations, Nat.choose_zero_succ]
  | cons x xs ih =>
    cases k with
    | zero => rfl
    | succ k =>
      show ((combinations k xs).map (fun t => x :: t) ++ combinations (k + 1) xs).length = _
      rw [List.length_append, List.length_map, ih k, ih (k + 1), List.length_cons,
        Nat.choose_succ_succ]

theorem nodup_combinations {α : Type*} (k : ℕ) (l : List α) :
    l.Nodup → (combinations k l).Nodup := by
  induction l generalizing k with
  | nil =>
    intro _
    cases k with
    | zero => simp [combinations]
    | succ k => simp [combinations]
  | cons x xs ih =>
    intro hl
    obtain ⟨hx, hxs⟩ := List.nodup_cons.mp hl
    cases k with
    | zero => simp [combinations]
    | succ k =>
      show ((combinations k xs).map (fun t => x :: t) ++ combinations (k + 1) xs).Nodup
      refine List.Nodup.append ((ih k hxs).map fun a b hab => ?_) (ih (k + 1) hxs) ?_
      · exact (List.cons.injEq x a x b).mp hab |>.2
      · intro s h1 h2
        obtain ⟨t, _, rfl⟩ := List.mem_map.mp h1
        have hsub := ((mem_combinations (k + 1) xs (x :: t)).mp h2).1
        exact hx (hsub.subset (List.mem_cons_self x t))

/- ### best-trial selection lemmas -/

/-- The incumbent loop returns the earliest trial attaining the maximal Sharpe
ratio: the full list splits as `pre ++ winner :: post` where every trial is
`≤` the winner and everything before it is strictly below. -/
theorem selectBest1_spec (best : TrialResult) (ts : List TrialResult) :
    ∃ pre post, best :: ts = pre ++ selectBest1 best ts :: post ∧
      (∀ t ∈ best :: ts, t.sharpe_ratio ≤ (selectBest1 best ts).sharpe_ratio) ∧
      (∀ t ∈ pre, t.sharpe_ratio < (selectBest1 best ts).sharpe_ratio) := by
  induction ts generalizing best with
  | nil =>
    refine ⟨[], [], rfl, ?_, by simp⟩
    intro t ht
    rw [List.mem_singleton.mp ht]
    exact le_refl _
  | cons t ts ih =>
    have hstep : selectBest1 best (t :: ts) =
        selectBest1 (if best.sharpe_ratio < t.sharpe_ratio then t else best) ts := rfl
    rw [hstep]
    by_cases h : best.sharpe_ratio < t.sharpe_ratio
    · rw [if_pos h]
      obtain ⟨pre, post, heq, hmax, hpre⟩ := ih t
      have hbest : best.sharpe_ratio < (selectBest1 t ts).sharpe_ratio :=
        lt_of_lt_of_le h (hmax t (List.mem_cons_self t ts))
      refine ⟨best :: pre, post, ?_, ?_, ?_⟩
      · rw [List.cons_append, ← heq]
      · intro u hu
        rcases List.mem_cons.mp hu with h1 | hu1
        · rw [h1]; exact le_of_lt hbest
        · exact hmax u hu1
      · intro u hu
        rcases List.mem_cons.mp hu with h1 | hu1
        · rw [h1]; exact hbest
        · exact hpre u hu1
    · rw [if_neg h]
      obtain ⟨pre, post, heq, hmax, hpre⟩ := ih best
      have hts : t.sharpe_ratio ≤ (selectBest1 best ts).sharpe_ratio :=
        le_trans (not_lt.mp h) (hmax best (List.mem_cons_self best ts))
      cases pre with
      | nil =>
        have h1 : best = selectBest1 best ts := ((List.cons.injEq _ _ _ _).mp heq).1
        refine ⟨[], t :: ts, by rw [List.nil_append, ← h1], ?_, by simp⟩
        intro u hu
        rcases List.mem_cons.mp hu with h2 | hu1
        · rw [h2]; exact hmax best (List.mem_cons_self best ts)
        · rcases List.mem_cons.mp hu1 with h3 | hu2
          · rw [h3]; exact hts
          · exact hmax u (List.mem_cons_of_mem _ hu2)
      | cons p pre₁ =>
        have h1 : best = p := ((List.cons.injEq _ _ _ _).mp heq).1
        have h2 : ts = pre₁ ++ selectBest1 best ts :: post :=
          ((List.cons.injEq _ _ _ _).mp heq).2
        have hbestlt : best.sharpe_ratio < (selectBest1 best ts).sharpe_ratio := by
          have hp := hpre p (List.mem_cons_self p pre₁)
          rw [← h1] at hp
          exact hp
        refine ⟨best :: t :: pre₁, post, ?_, ?_, ?_⟩
        · rw [List.cons_append, List.cons_append, ← h2]
        · intro u hu
          rcases List.mem_cons.mp hu with h3 | hu1
          · rw [h3]; exact hmax best (List.mem_cons_self best ts)
          · rcases List.mem_cons.mp hu1 with h4 | hu2
            · rw [h4]; exact hts
            · exact hmax u (List.mem_cons_of_mem _ hu2)
        · intro u hu
          rcases List.mem_cons.mp hu with h3 | hu1
          · rw [h3]; exact hbestlt
          · rcases List.mem_cons.mp hu1 with h4 | hu2
            · rw [h4]; exact lt_of_le_of_lt (not_lt.mp h) hbestlt
            · exact hpre u (List.mem_cons_of_mem _ hu2)

theorem selectBest_spec {l : List TrialResult} (hne : l ≠ []) :
    ∃ pre r post, l = pre ++ r :: post ∧ selectBest l = some r ∧
      (∀ t ∈ l, t.sharpe_ratio ≤ r.sharpe_ratio) ∧
      (∀ t ∈ pre, t.sharpe_ratio < r.sharpe_ratio) := by
  cases l with
  | nil => exact absurd rfl hne
  | cons t ts =>
    obtain ⟨pre, post, heq, hmax, hpre⟩ := selectBest1_spec t ts
    exact ⟨pre, selectBest1 t ts, post, heq, rfl, hmax, hpre⟩

theorem selectBest_mem {l : List TrialResult} {r : TrialResult}
    (h : selectBest l = some r) : r ∈ l := by
  cases l with
  | nil => exact absurd h (by simp [selectBest])
  | cons t ts =>
    obtain ⟨pre, post, heq, _, _⟩ := selectBest1_spec t ts
    have hr : selectBest1 t ts = r := by
      have : some (selectBest1 t ts) = some r := h
      exact Option.some.inj this
    rw [← hr, heq]
    exact List.mem_append_right _ (List.mem_cons_self _ _)

/- ### exceptList lemmas -/

theorem exceptList_forall_ok {α β : Type*} (f : α → Except String β) :
    ∀ {l : List α}, (∀ a ∈ l, ∃ b, f a = Except.ok b) →
      ∃ r, exceptList (l.map f) = Except.ok r ∧
        List.Forall₂ (fun a b => f a = Except.ok b) l r := by
  intro l
  induction l with
  | nil => exact fun _ => ⟨[], rfl, List.Forall₂.nil⟩
  | cons a as ih =>
    intro h
    obtain ⟨b, hb⟩ := h a (List.mem_cons_self a as)
    obtain ⟨r, hr, hf⟩ := ih (fun x hx => h x (List.mem_cons_of_mem _ hx))
    refine ⟨b :: r, ?_, List.Forall₂.cons hb hf⟩
    rw [List.map_cons]
    show (match f a with
      | Except.error e => Except.error e
      | Except.ok a =>
        match exceptList (as.map f) with
        | Except.error e => Except.error e
        | Except.ok as => Except.ok (a :: as)) = Except.ok (b :: r)
    rw [hb, hr]

theorem exceptList_ok_forall₂ {α β : Type*} (f : α → Except String β) :
    ∀ {l : List α} {r : List β}, exceptList (l.map f) = Except.ok r →
      List.Forall₂ (fun a b => f a = Except.ok b) l r := by
  intro l
  induction l with
  | nil =>
    intro r h
    have : r = [] := by
      have h' : Except.ok ([] : List β) = Except.ok r := h
      exact (Except.ok.inj h').symm
    rw [this]
    exact List.Forall₂.nil
  | cons a as ih =>
    intro r h
    rw [List.map_cons] at h
    cases hfa : f a with
    | error e =>
      simp only [exceptList, hfa] at h
      exact Except.noConfusion h
    | ok b =>
      cases hrest : exceptList (as.map f) with
      | error e =>
        simp only [exceptList, hfa, hrest] at h
        exact Except.noConfusion h
      | ok bs =>
        simp only [exceptList, hfa, hrest] at h
        rw [← Except.ok.inj h]
        exact List.Forall₂.cons hfa (ih hrest)

theorem forall₂_mem_right {α β : Type*} {R : α → β → Prop} :
    ∀ {l : List α} {r : List β}, List.Forall₂ R l r → ∀ b ∈ r, ∃ a ∈ l, R a b := by
  intro l r h
  induction h with
  | nil => intro b hb; exact absurd hb (List.not_mem_nil b)
  | cons h1 _ ih =>
    intro b hb
    rcases List.mem_cons.mp hb with h2 | hb1
    · exact ⟨_, List.mem_cons_self _ _, h2 ▸ h1⟩
    · obtain ⟨a, ha, hr⟩ := ih b hb1
      exact ⟨a, List.mem_cons_of_mem _ ha, hr⟩

theorem forall₂_map_eq {α β : Type*} {R : α → β → Prop} (g : β → α)
    (hg : ∀ a b, R a b → g b = a) :
    ∀ {l : List α} {r : List β}, List.Forall₂ R l r → r.map g = l := by
  intro l r h
  induction h with
  | nil => rfl
  | cons h1 _ ih => simp [hg _ _ h1, ih]

/- ### trial construction lemmas -/

theorem mkTrial_tickers {rf c : ℚ} {slice : List (List ℚ)} {combo : List String}
    {d : List ℚ} {t : TrialResult}
    (h : mkTrial rf c slice combo d = Except.ok t) : t.tickers = combo := by
  unfold mkTrial at h
  cases hcpr : compute_portfolio_returns (applyMaxWeightConstraint c (sampleNormalize d))
      slice with
  | error e => rw [hcpr] at h; exact absurd h (by simp)
  | ok prs =>
    rw [hcpr] at h
    rw [← Except.ok.inj h]

theorem mkTrial_isOk (rf c : ℚ) (slice : List (List ℚ)) (combo : List String)
    (d : List ℚ) (hc : 0 < c) (h0 : ∀ x ∈ d, 0 ≤ x) (hsum : 0 < d.sum) :
    ∃ t, mkTrial rf c slice combo d = Except.ok t := by
  have hnorm0 : ∀ x ∈ sampleNormalize d, 0 ≤ x := by
    intro x hx
    obtain ⟨y, hy, rfl⟩ := List.mem_map.mp hx
    exact div_nonneg (h0 y hy) hsum.le
  have h1 : (applyMaxWeightConstraint c (sampleNormalize d)).sum = 1 :=
    sum_applyMaxWeightConstraint c _ hc hnorm0 (normalizeBySum_sum (ne_of_gt hsum))
  unfold mkTrial compute_portfolio_returns
  rw [h1, if_pos (by norm_num [isClose])]
  exact ⟨_, rfl⟩

theorem simulate_one_tickers {rf c : ℚ} {returns : List (String → ℚ)}
    {draws : List (List ℚ)} {combo : List String} {t : TrialResult}
    (h : simulate_one rf c returns draws combo = Except.ok t) : t.tickers = combo := by
  unfold simulate_one at h
  cases he : exceptList (draws.map
      (mkTrial rf c (returns.map (fun row => combo.map row)) combo)) with
  | error e =>
    rw [he] at h
    exact Except.noConfusion (show Except.error e = Except.ok t from h)
  | ok trials =>
    rw [he] at h
    have h2 : (match selectBest trials with
      | none => Except.error "AttributeError: best_weights is None"
      | some u => Except.ok u) = Except.ok t := h
    cases hs : selectBest trials with
    | none =>
      rw [hs] at h2
      exact Except.noConfusion (show Except.error _ = Except.ok t from h2)
    | some r =>
      rw [hs] at h2
      have hrt : r = t := Except.ok.inj h2
      have hmem : r ∈ trials := selectBest_mem hs
      obtain ⟨d, _, hmk⟩ := forall₂_mem_right (exceptList_ok_forall₂ _ he) r hmem
      rw [← hrt]
      exact mkTrial_tickers hmk

/- ### C2: the best-trial selection of TrialSearcher -/

/-- C2: for one subset and a nonempty list of trials (one per simulation), the
searcher returns a trial whose Sharpe ratio is greatest among all trials
performed, and it is the earliest-found such trial: the trial list splits as
`pre ++ winner :: post` with everything in `pre` strictly below the winner (a
later trial replaces the incumbent only when strictly greater). -/
theorem trial_searcher_best (rf c : ℚ) (returns : List (String → ℚ))
    (draws : List (List ℚ)) (combo : List String) (trials : List TrialResult)
    (htr : exceptList (draws.map
      (mkTrial rf c (returns.map (fun row => combo.map row)) combo)) = Except.ok trials)
    (hne : trials ≠ []) :
    ∃ pre r post, trials = pre ++ r :: post ∧
      simulate_one rf c returns draws combo = Except.ok r ∧
      (∀ t ∈ trials, t.sharpe_ratio ≤ r.sharpe_ratio) ∧
      (∀ t ∈ pre, t.sharpe_ratio < r.sharpe_ratio) := by
  obtain ⟨pre, r, post, heq, hsel, hmax, hpre⟩ := selectBest_spec hne
  refine ⟨pre, r, post, heq, ?_, hmax, hpre⟩
  unfold simulate_one
  rw [htr]
  show (match selectBest trials with
    | none => Except.error "AttributeError: best_weights is None"
    | some t => Except.ok t) = Except.ok r
  rw [hsel]

/-- Witness for C2: a single draw `[1]` on the one-ticker subset `["A"]` with
an empty date range produces the single trial with Sharpe ratio 0, which is
returned. -/
theorem trial_searcher_best_witness :
    ∃ pre r post,
      [TrialResult.mk ["A"] [1] 0 0 0] = pre ++ r :: post ∧
      simulate_one 0 1 [] [[1]] ["A"] = Except.ok r ∧
      (∀ t ∈ [TrialResult.mk ["A"] [1] 0 0 0], t.sharpe_ratio ≤ r.sharpe_ratio) ∧
      (∀ t ∈ pre, t.sharpe_ratio < r.sharpe_ratio) := by
  have hw : applyMaxWeightConstraint 1 (sampleNormalize [1]) = [1] := by
    norm_num [applyMaxWeightConstraint, sampleNormalize, normalizeBySum]
  have hcpr : compute_portfolio_returns [1] [] = Except.ok [] := by
    norm_num [compute_portfolio_returns, isClose]
  have hmk : mkTrial 0 1 [] ["A"] [1] =
      Except.ok (TrialResult.mk ["A"] [1] 0 0 0) := by
    unfold mkTrial
    rw [hw, hcpr]
    show Except.ok _ = Except.ok _
    simp only [Except.ok.injEq, TrialResult.mk.injEq]
    refine ⟨trivial, trivial, ?_, ?_, ?_⟩
    · simp [compute_portfolio_sharpe_ratio, varQ, meanQ]
    · norm_num [annualized_return, meanQ]
    · simp [compute_portfolio_annualized_volatility, stdR, varQ, meanQ, Real.sqrt_zero]
  refine trial_searcher_best 0 1 [] [[1]] ["A"] _ ?_ (by simp)
  show exceptList [mkTrial 0 1 [] ["A"] [1]] = _
  rw [hmk]
  rfl

/- ### successful subset evaluation -/

theorem simulate_one_ok (rf c : ℚ) (returns : List (String → ℚ)) (draws : List (List ℚ))
    (combo : List String) (hc : 0 < c) (hne : draws ≠ [])
    (hd : ∀ d ∈ draws, (∀ x ∈ d, 0 ≤ x) ∧ 0 < d.sum) :
    ∃ t, simulate_one rf c returns draws combo = Except.ok t := by
  obtain ⟨trials, htr, hf⟩ := exceptList_forall_ok
    (mkTrial rf c (returns.map (fun row => combo.map row)) combo)
    (fun d hdm => mkTrial_isOk rf c _ combo d hc (hd d hdm).1 (hd d hdm).2)
  have htrne : trials ≠ [] := by
    intro hnil
    apply hne
    have hlen := hf.length_eq
    rw [hnil] at hlen
    exact List.length_eq_zero.mp hlen
  obtain ⟨pre, r, post, _, hsel, _, _⟩ := selectBest_spec htrne
  refine ⟨r, ?_⟩
  unfold simulate_one
  rw [htr]
  show (match selectBest trials with
    | none => Except.error "AttributeError: best_weights is None"
    | some t => Except.ok t) = Except.ok r
  rw [hsel]

/- ### C1: the full run -/

/-- C1: for a universe of distinct tickers and `1 ≤ k ≤ n`, a full run (with at
least one well-formed draw per subset) returns exactly `C(n,k)` rows — one per
distinct size-`k` subset of the universe, none repeated, none missing — and
adjacent rows satisfy `sharpe_ratio[i] ≥ sharpe_ratio[i+1]`. -/
theorem full_run_search_result (tickers : List String) (k : ℕ) (rf c : ℚ)
    (returns : List (String → ℚ)) (draws : List String → List (List ℚ))
    (hnd : tickers.Nodup) (_hk1 : 1 ≤ k) (_hkn : k ≤ tickers.length) (hc : 0 < c)
    (hdr : ∀ combo, draws combo ≠ [])
    (hd : ∀ combo, ∀ d ∈ draws combo, (∀ x ∈ d, 0 ≤ x) ∧ 0 < d.sum) :
    ∃ rows, run rf c returns draws tickers k = Except.ok rows ∧
      rows.length = tickers.length.choose k ∧
      (rows.map TrialResult.tickers).Nodup ∧
      (∀ s, s ∈ rows.map TrialResult.tickers ↔ s.Sublist tickers ∧ s.length = k) ∧
      (∀ i (h1 : i < rows.length) (h2 : i + 1 < rows.length),
        (rows.get ⟨i + 1, h2⟩).sharpe_ratio ≤ (rows.get ⟨i, h1⟩).sharpe_ratio) := by
  obtain ⟨rows0, hex, hf⟩ := exceptList_forall_ok
    (fun combo => simulate_one rf c returns (draws combo) combo)
    (fun combo _ => simulate_one_ok rf c returns (draws combo) combo hc (hdr combo) (hd combo))
  have hmapt : rows0.map TrialResult.tickers = combinations k tickers :=
    forall₂_map_eq TrialResult.tickers (fun _ _ h => simulate_one_tickers h) hf
  have hperm : List.Perm ((rows0.insertionSort bySharpeDesc).map TrialResult.tickers)
      (combinations k tickers) := by
    rw [← hmapt]
    exact (List.perm_insertionSort bySharpeDesc rows0).map TrialResult.tickers
  refine ⟨rows0.insertionSort bySharpeDesc, ?_, ?_, ?_, ?_, ?_⟩
  · unfold run
    rw [hex]
  · rw [(List.perm_insertionSort bySharpeDesc rows0).length_eq, ← hf.length_eq,
      length_combinations]
  · exact hperm.nodup_iff.mpr (nodup_combinations k tickers hnd)
  · intro s
    rw [hperm.mem_iff]
    exact mem_combinations k tickers s
  · intro i h1 h2
    exact (List.sorted_insertionSort bySharpeDesc rows0).rel_get_of_lt
      (Fin.mk_lt_mk.mpr (Nat.lt_succ_self i))

/-- Witness for C1: universe `["A", "B"]`, `k = 1`, one draw `[1]` per
subset. -/
theorem full_run_search_result_witness :
    ∃ rows, run 0 1 [] (fun _ => [[1]]) ["A", "B"] 1 = Except.ok rows ∧
      rows.length = (["A", "B"] : List String).length.choose 1 ∧
      (rows.map TrialResult.tickers).Nodup ∧
      (∀ s, s ∈ rows.map TrialResult.tickers ↔
        s.Sublist ["A", "B"] ∧ s.length = 1) ∧
      (∀ i (h1 : i < rows.length) (h2 : i + 1 < rows.length),
        (rows.get ⟨i + 1, h2⟩).sharpe_ratio ≤ (rows.get ⟨i, h1⟩).sharpe_ratio) :=
  full_run_search_result ["A", "B"] 1 0 1 [] (fun _ => [[1]])
    (by simp) (le_refl 1) (by simp) (by norm_num)
    (fun _ => by simp)
    (fun _ d hdm => by
      rw [List.mem_singleton.mp hdm]
      exact ⟨by norm_num, by norm_num⟩)

/- ### C7: no upfront configuration validation -/

/-- C7 (amended): the engine performs no configuration validation before
starting work.  A `k` larger than the universe yields an empty enumeration (no
subset evaluated, no error raised by the enumerator); `k = 0` enumerates the
empty subset, which IS evaluated; and a subset whose draw list is empty
(`num_simulations ≤ 0`) fails only inside its own evaluation, with the
`None`-dereference error, after the trial loop ran zero times. -/
theorem no_upfront_config_validation (tickers : List String) (k : ℕ) (rf c : ℚ)
    (returns : List (String → ℚ)) (draws : List String → List (List ℚ)) :
    (tickers.length < k → combinations k tickers = []) ∧
    (k = 0 → combinations k tickers = [[]]) ∧
    (∀ combo, draws combo = [] →
      simulate_one rf c returns (draws combo) combo =
        Except.error "AttributeError: best_weights is None") := by
  refine ⟨?_, ?_, ?_⟩
  · intro hlt
    have hz : (combinations k tickers).length = 0 := by
      rw [length_combinations, Nat.choose_eq_zero_of_lt hlt]
    exact List.length_eq_zero.mp hz
  · rintro rfl
    cases tickers <;> rfl
  · intro combo h
    rw [h]
    rfl

/-- Witness for C7's amended theorem: `k = 2` on a one-ticker universe gives an
empty enumeration, `k = 0` enumerates the empty subset, and a subset with zero
draws fails with the `None`-dereference error. -/
theorem no_upfront_config_validation_witness :
    combinations 2 (["A"] : List String) = [] ∧
    combinations 0 (["A"] : List String) = [[]] ∧
    simulate_one 0 (1/5) [] [] ["A"] =
      Except.error "AttributeError: best_weights is None" :=
  ⟨(no_upfront_config_validation ["A"] 2 0 (1/5) [] (fun _ => [])).1 (by norm_num),
   (no_upfront_config_validation ["A"] 0 0 (1/5) [] (fun _ => [])).2.1 rfl,
   (no_upfront_config_validation ["A"] 2 0 (1/5) [] (fun _ => [])).2.2 ["A"] rfl⟩

/-- Counterexample to C7 as stated: with the violating configuration `k = 0`
(violating `k ≥ 1`) and a nonempty universe, the engine does not stop with a
configuration error before doing search work: the empty subset is enumerated
and evaluated, and the run aborts with the weight-validation error raised
inside that evaluation — the distinct §7 "validation error" class, not a
configuration error. -/
theorem simulate_one_error (rf c : ℚ) (returns : List (String → ℚ))
    (draws : List (List ℚ)) (combo : List String) (e : String)
    (h : exceptList (draws.map
      (mkTrial rf c (returns.map (fun row => combo.map row)) combo)) = Except.error e) :
    simulate_one rf c returns draws combo = Except.error e := by
  unfold simulate_one
  rw [h]

theorem run_error (rf c : ℚ) (returns : List (String → ℚ))
    (draws : List String → List (List ℚ)) (tickers : List String) (k : ℕ) (e : String)
    (h : exceptList ((combinations k tickers).map
      (fun combo => simulate_one rf c returns (draws combo) combo)) = Except.error e) :
    run rf c returns draws tickers k = Except.error e := by
  unfold run
  rw [h]

theorem config_validation_counterexample :
    combinations 0 (["A", "B"] : List String) = [[]] ∧
    run 0 (1/5) [] (fun _ => [[]]) ["A", "B"] 0 =
      Except.error "Weights must sum to 1.0" := by
  have hmwc : applyMaxWeightConstraint (1/5) ([] : List ℚ) = [] := by
    norm_num [applyMaxWeightConstraint]
  have hmk : mkTrial 0 (1/5) [] [] [] = Except.error "Weights must sum to 1.0" := by
    unfold mkTrial
    have hcpr : compute_portfolio_returns
        (applyMaxWeightConstraint (1/5) (sampleNormalize [])) [] =
        Except.error "Weights must sum to 1.0" := by
      have hsn : sampleNormalize ([] : List ℚ) = [] := rfl
      rw [hsn, hmwc]
      unfold compute_portfolio_returns
      rw [if_neg (by norm_num [isClose])]
    rw [hcpr]
  refine ⟨rfl, ?_⟩
  refine run_error 0 (1/5) [] (fun _ => [[]]) ["A", "B"] 0 "Weights must sum to 1.0" ?_
  show exceptList [simulate_one 0 (1/5) [] [[]] []] = _
  have hsim : simulate_one 0 (1/5) [] [[]] [] =
      Except.error "Weights must sum to 1.0" := by
    refine simulate_one_error 0 (1/5) [] [[]] [] "Weights must sum to 1.0" ?_
    show exceptList [mkTrial 0 (1/5) [] [] []] = _
    rw [hmk]
    rfl
  rw [hsim]
  rfl

end Optifolio
